import Mathlib

/-!
Verification of the V4A patch engine (`hud_controller/tools/apply_patch.py`).

The Python module is pure except for the file-store calls at the very edge;
we embed it shallowly:

* file contents and patch text are `String`; line lists are `List String`;
* Python string helpers (`split`, `strip`, `rstrip`, `startswith`, slicing)
  are re-implemented over `String.data` (`List Char`) so that everything is
  structurally recursive and kernel-computable;
* `raise DiffError(...)` becomes `Except.error`; an `assert` that can fire
  becomes an `Except.error` as well;
* the `while` loops of the parser become fuel-indexed recursions; the fuel
  chosen by the wrappers (`lines.length + 1 - index`) always suffices because
  every loop iteration either consumes at least one input line or fails;
* Python's `-1` "not found" sentinel of `_find_context_core` becomes
  `Option Nat`;
* `dict` (insertion ordered) becomes an association list.
-/

namespace ApplyPatch

/-- ASCII whitespace stripped by Python's `str.strip` / `str.rstrip`. -/
def isPySpace (c : Char) : Bool :=
  c = ' ' || c = '\t' || c = '\n' || c = '\r' || c = '\x0b' || c = '\x0c'

/-- Python `str.lstrip()`. -/
def pyLstrip (s : String) : String := String.mk (s.data.dropWhile isPySpace)

/-- Python `str.rstrip()`. -/
def pyRstrip (s : String) : String :=
  String.mk (s.data.reverse.dropWhile isPySpace).reverse

/-- Python `str.strip()`. -/
def pyStrip (s : String) : String := pyLstrip (pyRstrip s)

/-- Python `s.startswith(pre)`. -/
def strStartsWith (s pre : String) : Bool := pre.data.isPrefixOf s.data

/-- Python `s.endswith(suf)`. -/
def strEndsWith (s suf : String) : Bool := suf.data.isSuffixOf s.data

/-- Python `s[n:]` (character based; all strings here are ASCII). -/
def strDrop (s : String) (n : Nat) : String := String.mk (s.data.drop n)

/-- Python `s.startswith(t) for any t in ps` (a `startswith` tuple call). -/
def startsWithAny (s : String) (ps : List String) : Bool :=
  ps.any (fun p => strStartsWith s p)

/-- Splitting a character list on a separator character; Python's
`str.split(sep)` semantics: always at least one (possibly empty) part. -/
def splitCharsOn (sep : Char) : List Char → List (List Char)
  | [] => [[]]
  | c :: rest =>
    if c = sep then [] :: splitCharsOn sep rest
    else
      match splitCharsOn sep rest with
      | [] => [[c]]
      | h :: t => (c :: h) :: t

/-- Python `s.split(sep)` for a one-character separator. -/
def splitOnChar (sep : Char) (s : String) : List String :=
  (splitCharsOn sep s.data).map String.mk

/-- Python `text.split("\n")`, as used throughout the patch engine. -/
def splitNl (s : String) : List String := splitOnChar '\n' s

/-- Python `path.split("/")`, used by `posixpath.normpath`. -/
def splitSlash (s : String) : List String := splitOnChar '/' s

/-- `sep.join` at the character level. -/
def joinCharsOn (sep : Char) : List (List Char) → List Char
  | [] => []
  | [x] => x
  | x :: y :: t => x ++ sep :: joinCharsOn sep (y :: t)

/-- Python `"\n".join(lines)`. -/
def joinNl (ls : List String) : String :=
  String.mk (joinCharsOn '\n' (ls.map String.data))

/-- Python `"/".join(comps)` (used by `normpath`). -/
def joinSlash (ls : List String) : String :=
  String.mk (joinCharsOn '/' (ls.map String.data))

/-- `Except.isOk` for our error monad. -/
def isOkE {α : Type} : Except String α → Bool
  | .ok _ => true
  | .error _ => false

/-! ## Data model (dataclasses of `apply_patch.py`) -/

inductive ActionType
  | add
  | delete
  | update
deriving DecidableEq, Repr

structure FileChange where
  type : ActionType
  old_content : Option String := none
  new_content : Option String := none
  move_path : Option String := none
deriving DecidableEq, Repr

structure Commit where
  changes : List (String × FileChange) := []
deriving DecidableEq, Repr

structure Chunk where
  orig_index : Nat
  del_lines : List String
  ins_lines : List String
deriving DecidableEq, Repr

structure PatchAction where
  type : ActionType
  new_file : Option String := none
  chunks : List Chunk := []
  move_path : Option String := none
deriving DecidableEq, Repr

structure Patch where
  actions : List (String × PatchAction) := []
deriving DecidableEq, Repr

/-- The loaded-files dict (`current_files` / `orig`): path → content. -/
abbrev FileMap := List (String × String)

/-! ## Context resolution (`_find_context_core` / `_find_context`) -/

/-- Python `lines[i:i + len(context)]`-vs-`context` comparison after mapping
`f` over both sides (`f` is the identity, `rstrip`, or `strip` tier).
A slice shorter than `context` (near end of file) never compares equal,
exactly as in Python. -/
def matchWindow (lines context : List String) (f : String → String) (i : Nat) : Bool :=
  decide (((lines.drop i).take context.length).map f = context.map f)

/-- Forward scan of `for i in range(start, len(lines))` for the first window
match; `rest` is `lines.drop i`. -/
def scanWindowAux (lines context : List String) (f : String → String) :
    List String → Nat → Option Nat
  | [], _ => none
  | _ :: rs, i =>
    if matchWindow lines context f i then some i
    else scanWindowAux lines context f rs (i + 1)

/-- First `i ≥ start` at which the context window matches under `f`. -/
def scanWindow (lines context : List String) (f : String → String) (start : Nat) :
    Option Nat :=
  scanWindowAux lines context f (lines.drop start) start

/-- `_find_context_core(lines, context, start)`.

Python returns `(-1, 0)` on failure; we return `(none, 0)`.  Python iterates
`i` over `range(start, len(lines))`; when the caller passes a "negative"
start (`len(lines) - len(context)` with a context longer than the file) a
negative index can never produce a full-length slice equal to a non-empty
context, so scanning from `0` — which is what `Nat` truncated subtraction
gives the end-of-file caller — is extensionally identical. -/
def findContextCore (lines context : List String) (start : Nat) : Option Nat × Nat :=
  if context.isEmpty then (some start, 0)
  else
    match scanWindow lines context id start with
    | some i => (some i, 0)
    | none =>
      match scanWindow lines context pyRstrip start with
      | some i => (some i, 1)
      | none =>
        match scanWindow lines context pyStrip start with
        | some i => (some i, 100)
        | none => (none, 0)

/-- `_find_context(lines, context, start, eof)`. -/
def findContext (lines context : List String) (start : Nat) (eof : Bool) :
    Option Nat × Nat :=
  if eof then
    match findContextCore lines context (lines.length - context.length) with
    | (some i, fuzz) => (some i, fuzz)
    | (none, _) =>
      match findContextCore lines context start with
      | (idx, fuzz) => (idx, fuzz + 10000)
  else findContextCore lines context start

/-! ## Hunk-body scan (`Parser._peek_next_section`) -/

inductive Mode
  | keep
  | add
  | delete
deriving DecidableEq, Repr

structure PeekState where
  old : List String
  delLines : List String
  insLines : List String
  chunks : List Chunk
  mode : Mode
deriving DecidableEq, Repr

/-- Appending the pending del/ins lines as a `Chunk`; the chunk's (relative)
`orig_index` is `len(old) - len(del_lines)` as in the source (the pending
del lines are always a suffix of `old`, so the subtraction is exact). -/
def flushChunk (st : PeekState) : List Chunk :=
  st.chunks ++ [{ orig_index := st.old.length - st.delLines.length,
                  del_lines := st.delLines, ins_lines := st.insLines }]

/-- The `startswith` tuple that terminates a hunk body. -/
def sectionStops : List String :=
  ["@@", "*** End Patch", "*** Update File:", "*** Delete File:",
   "*** Add File:", "*** End of File"]

/-- `mode` classification of a hunk-body line by its first character (only
called on `'+'`, `'-'`, `' '`). -/
def classify (c : Char) : Mode :=
  if c = '+' then .add else if c = '-' then .delete else .keep

/-- The `if mode == "keep" and last_mode != mode` block: flush the pending
chunk (when non-empty) and reset the pending del/ins lines. -/
def peekFlush (st : PeekState) (m : Mode) : PeekState :=
  if m = Mode.keep ∧ ¬ st.mode = Mode.keep then
    { st with
      chunks := if ¬ st.insLines = [] ∨ ¬ st.delLines = [] then flushChunk st
                else st.chunks,
      delLines := [], insLines := [] }
  else st

/-- The per-mode accumulation of the stripped line text `tl`. -/
def peekAppend (base : PeekState) (m : Mode) (tl : String) : PeekState :=
  match m with
  | .delete => { base with old := base.old ++ [tl],
                           delLines := base.delLines ++ [tl], mode := m }
  | .add => { base with insLines := base.insLines ++ [tl], mode := m }
  | .keep => { base with old := base.old ++ [tl], mode := m }

/-- One body-line step of `_peek_next_section`. -/
def peekStep (st : PeekState) (m : Mode) (tl : String) : PeekState :=
  peekAppend (peekFlush st m) m tl

/-- The scanning loop of `_peek_next_section`: classify each line by its
leading character, accumulating `old` (context+removed trace), the pending
del/ins lines, and the flushed chunks.  Returns the final state and the
index of the line the loop stopped at. -/
def peekLoop (plines : List String) : Nat → Nat → PeekState →
    Except String (PeekState × Nat)
  | 0, _, _ => .error "peek_next_section: fuel exhausted"
  | fuel + 1, index, st =>
    match plines[index]? with
    | none => .ok (st, index)
    | some s =>
      if startsWithAny s sectionStops then .ok (st, index)
      else if s = "***" then .ok (st, index)
      else if strStartsWith s "***" then .error ("Invalid Line: " ++ s)
      else
        -- `if s == "": s = " "` — an empty body line is a blank context line
        match (if s = "" then " " else s).data with
        | [] => .error "unreachable: substituted line is non-empty"
        | c :: rest =>
          if c = '+' || c = '-' || c = ' ' then
            peekLoop plines fuel (index + 1) (peekStep st (classify c) (String.mk rest))
          else .error ("Invalid Line: " ++ (if s = "" then " " else s))

/-- The post-loop flush of `_peek_next_section` (`if ins_lines or del_lines`). -/
def peekFinal (st : PeekState) : List Chunk :=
  if ¬ st.insLines = [] ∨ ¬ st.delLines = [] then flushChunk st else st.chunks

/-- `Parser._peek_next_section`: returns the context+removed window `old`,
the relative chunks, the index just past the consumed body, and the
end-of-file-anchored flag. -/
def peekNextSection (plines : List String) (index : Nat) :
    Except String (List String × List Chunk × Nat × Bool) :=
  match peekLoop plines (plines.length + 1 - index) index
      { old := [], delLines := [], insLines := [], chunks := [], mode := .keep } with
  | .error e => .error e
  | .ok (st, idx) =>
    if plines[idx]? = some "*** End of File" then
      .ok (st.old, peekFinal st, idx + 1, true)
    else if idx = index then
      .error ("Nothing in this section - " ++ plines.getD idx "")
    else
      .ok (st.old, peekFinal st, idx, false)

/-! ## `@@`-anchor search inside `Parser.parse_update_file` -/

/-- `for i, s in enumerate(rest, i0)` search for the first line satisfying
`p`; `rest` is `flines.drop i`. -/
def findFromAux (p : String → Bool) : List String → Nat → Option Nat
  | [], _ => none
  | s :: rs, i => if p s then some i else findFromAux p rs (i + 1)

/-- First index `i ≥ start` with `p (flines[i])`. -/
def findFrom (flines : List String) (p : String → Bool) (start : Nat) : Option Nat :=
  findFromAux p (flines.drop start) start

/-- The `def_str` anchor search of `parse_update_file`: exact forward search
(skipped if the anchor text already occurs before the cursor), then a
trimmed forward search (ditto) costing one fuzz point.  Note that the source
raises no error when neither search succeeds — it simply leaves the cursor
and fuzz untouched and falls through to window resolution. -/
def resolveAnchor (flines : List String) (cur : Nat) (defStr : String) (fuzz : Nat) :
    Nat × Nat :=
  match (if (flines.take cur).any (fun s => s = defStr) then none
         else findFrom flines (fun s => s = defStr) cur) with
  | some i => (i + 1, fuzz)
  | none =>
    if (flines.take cur).any (fun s => pyStrip s = pyStrip defStr) then (cur, fuzz)
    else
      match findFrom flines (fun s => pyStrip s = pyStrip defStr) cur with
      | some i => (i + 1, fuzz + 1)
      | none => (cur, fuzz)

/-! ## `Parser.parse_update_file` -/

structure UpdState where
  pindex : Nat
  fuzz : Nat
  chunks : List Chunk
  cur : Nat
deriving DecidableEq, Repr

/-- The `startswith` tuple that terminates an Update section. -/
def updateStops : List String :=
  ["*** End Patch", "*** Update File:", "*** Delete File:", "*** Add File:",
   "*** End of File"]

/-- The hunk-header reading prologue of one `parse_update_file` iteration:
`def_str := read_str("@@ ")`, then — only when `def_str` is empty — the
bare-`@@` check `self.lines[self.index] == "@@"` (note that when the line
was exactly `"@@ "` it has been consumed, so that check looks at the *next*
line, and can raise an `IndexError` past the end).  Returns
`(def_str, section_str, new self.index)`. -/
def readHunkHeader (plines : List String) (pindex : Nat) :
    Except String (String × String × Nat) :=
  match plines[pindex]? with
  | none => .error "assertion failed: read_str index out of range"
  | some line =>
    if strStartsWith line "@@ " then
      if ¬ strDrop line 3 = "" then .ok (strDrop line 3, "", pindex + 1)
      else
        match plines[pindex + 1]? with
        | none => .error "IndexError: list index out of range"
        | some l2 =>
          if l2 = "@@" then .ok ("", "@@", pindex + 2)
          else .ok ("", "", pindex + 1)
    else
      if line = "@@" then .ok ("", "@@", pindex + 1)
      else .ok ("", "", pindex)

/-- `if def_str.strip(): ...` — the anchor search step (no-op for a blank
anchor text). -/
def anchorStep (flines : List String) (cur : Nat) (defStr : String) (fuzz : Nat) :
    Nat × Nat :=
  if ¬ pyStrip defStr = "" then resolveAnchor flines cur defStr fuzz
  else (cur, fuzz)

/-- The hunk loop of `parse_update_file`.  `plines` are the patch lines
(`self.lines`), `flines` the target file's lines (`text.split("\n")`);
`st.pindex` is `self.index`, `st.cur` the file-side scan cursor `index`. -/
def parseUpdateLoop (plines flines : List String) : Nat → UpdState →
    Except String UpdState
  | 0, _ => .error "parse_update_file: fuel exhausted"
  | fuel + 1, st =>
    match plines[st.pindex]? with
    | none => .ok st
    | some line =>
      if startsWithAny line updateStops then .ok st
      else
        match readHunkHeader plines st.pindex with
        | .error e => .error e
        | .ok (defStr, sectionStr, p2) =>
          if defStr = "" ∧ sectionStr = "" ∧ ¬ st.cur = 0 then
            .error ("Invalid Line:\n" ++ line)
          else
            match peekNextSection plines p2 with
            | .error e => .error e
            | .ok (old, chunksRel, endIdx, eof) =>
              match findContext flines old (anchorStep flines st.cur defStr st.fuzz).1 eof with
              | (none, _) =>
                .error ((if eof then "Invalid EOF Context " else "Invalid Context ")
                         ++ joinNl old)
              | (some newIndex, f2) =>
                parseUpdateLoop plines flines fuel
                  { pindex := endIdx,
                    fuzz := (anchorStep flines st.cur defStr st.fuzz).2 + f2,
                    chunks := st.chunks ++ chunksRel.map
                      (fun c => { c with orig_index := c.orig_index + newIndex }),
                    cur := newIndex + old.length }

/-- `Parser.parse_update_file(text)`: returns the Update `PatchAction`
(before `move_path` is attached), the new `self.index`, and the new
`self.fuzz`. -/
def parseUpdateFile (plines : List String) (pindex : Nat) (fuzz : Nat) (text : String) :
    Except String (PatchAction × Nat × Nat) :=
  match parseUpdateLoop plines (splitNl text) (plines.length + 1 - pindex)
      { pindex := pindex, fuzz := fuzz, chunks := [], cur := 0 } with
  | .error e => .error e
  | .ok st => .ok ({ type := .update, chunks := st.chunks }, st.pindex, st.fuzz)

/-! ## `Parser.parse_add_file` -/

/-- The `startswith` tuple that terminates an Add section. -/
def addStops : List String :=
  ["*** End Patch", "*** Update File:", "*** Delete File:", "*** Add File:"]

/-- The body loop of `parse_add_file`: every consumed line must start with
`+`; its remainder is collected. -/
def parseAddLoop (plines : List String) : Nat → Nat → List String →
    Except String (List String × Nat)
  | 0, _, _ => .error "parse_add_file: fuel exhausted"
  | fuel + 1, pindex, acc =>
    match plines[pindex]? with
    | none => .ok (acc, pindex)
    | some line =>
      if startsWithAny line addStops then .ok (acc, pindex)
      else if ¬ strStartsWith line "+" then .error ("Invalid Add File Line: " ++ line)
      else parseAddLoop plines fuel (pindex + 1) (acc ++ [strDrop line 1])

/-- `Parser.parse_add_file()`. -/
def parseAddFile (plines : List String) (pindex : Nat) :
    Except String (PatchAction × Nat) :=
  match parseAddLoop plines (plines.length + 1 - pindex) pindex [] with
  | .error e => .error e
  | .ok (ls, p) => .ok ({ type := .add, new_file := some (joinNl ls) }, p)

/-! ## `Parser.parse` -/

/-- `Parser.read_str(prefix)`: if the current line starts with `prefix`,
consume it and return the remainder, else return `""` without consuming.
Python asserts `self.index < len(self.lines)`; a failing assert is an
error here. -/
def readStr (plines : List String) (pindex : Nat) (pre : String) :
    Except String (String × Nat) :=
  match plines[pindex]? with
  | none => .error "assertion failed: read_str index out of range"
  | some l =>
    if strStartsWith l pre then .ok (strDrop l pre.data.length, pindex + 1)
    else .ok ("", pindex)

/-- The section loop of `Parser.parse`: recognizes Update/Delete/Add headers
until the `*** End Patch` line.  Returns the action map (insertion ordered),
the accumulated fuzz, and the index just past `*** End Patch`. -/
def parseLoop (cf : FileMap) (plines : List String) :
    Nat → Nat → Nat → List (String × PatchAction) →
    Except String (List (String × PatchAction) × Nat × Nat)
  | 0, _, _, _ => .error "parse: fuel exhausted"
  | fuel + 1, pindex, fuzz, actions =>
    match plines[pindex]? with
    | none => .error "assertion failed: startswith index out of range"
    | some line =>
      if strStartsWith line "*** End Patch" then .ok (actions, fuzz, pindex + 1)
      else
        match readStr plines pindex "*** Update File: " with
        | .error e => .error e
        | .ok (updPath, i1) =>
          if ¬ updPath = "" then
            if (List.lookup updPath actions).isSome then
              .error ("Update File Error: Duplicate Path: " ++ updPath)
            else
              match readStr plines i1 "*** Move to: " with
              | .error e => .error e
              | .ok (moveTo, i2) =>
                match List.lookup updPath cf with
                | none => .error ("Update File Error: Missing File: " ++ updPath)
                | some text =>
                  match parseUpdateFile plines i2 fuzz text with
                  | .error e => .error e
                  | .ok (action, i3, fuzz') =>
                    parseLoop cf plines fuel i3 fuzz'
                      (actions ++ [(updPath,
                        { action with move_path := if ¬ moveTo = "" then some moveTo
                                                   else none })])
          else
            match readStr plines i1 "*** Delete File: " with
            | .error e => .error e
            | .ok (delPath, i2) =>
              if ¬ delPath = "" then
                if (List.lookup delPath actions).isSome then
                  .error ("Delete File Error: Duplicate Path: " ++ delPath)
                else if (List.lookup delPath cf).isNone then
                  .error ("Delete File Error: Missing File: " ++ delPath)
                else
                  parseLoop cf plines fuel i2 fuzz
                    (actions ++ [(delPath, { type := .delete })])
              else
                match readStr plines i2 "*** Add File: " with
                | .error e => .error e
                | .ok (addPath, i3) =>
                  if ¬ addPath = "" then
                    if (List.lookup addPath actions).isSome then
                      .error ("Add File Error: Duplicate Path: " ++ addPath)
                    else
                      match parseAddFile plines i3 with
                      | .error e => .error e
                      | .ok (action, i4) =>
                        parseLoop cf plines fuel i4 fuzz (actions ++ [(addPath, action)])
                  else
                    match plines[i3]? with
                    | some l => .error ("Unknown Line: " ++ l)
                    | none => .error "Unknown Line: index out of range"

/-! ## `_get_updated_file` (Commit Builder) -/

/-- The chunk-replay loop of `_get_updated_file`: copies
`orig_lines[cursor:chunk.orig_index]`, appends the inserted lines, and skips
the removed lines; built head-first instead of via an accumulating `dest_lines`
list, which yields the same output list. -/
def applyChunks (origLines : List String) (cursor : Nat) :
    List Chunk → Except String (List String)
  | [] => .ok (origLines.drop cursor)
  | c :: rest =>
    if c.orig_index > origLines.length then
      .error "_get_updated_file: chunk.orig_index > len(lines)"
    else if cursor > c.orig_index then
      .error "_get_updated_file: orig_index > chunk.orig_index"
    else
      match applyChunks origLines (c.orig_index + c.del_lines.length) rest with
      | .error e => .error e
      | .ok dest =>
        .ok (((origLines.drop cursor).take (c.orig_index - cursor))
              ++ c.ins_lines ++ dest)

/-- `_get_updated_file(text, action, path)`.  The source's
`assert action.type == ActionType.UPDATE` is modelled as an error. -/
def getUpdatedFile (text : String) (action : PatchAction) (path : String) :
    Except String String :=
  if action.type = ActionType.update then
    match applyChunks (splitNl text) 0 action.chunks with
    | .error e => .error e
    | .ok dest => .ok (joinNl dest)
  else .error ("assertion failed: not an update action for " ++ path)

/-! ## `_text_to_patch`, `_identify_files_needed`, `_patch_to_commit`,
`_apply_commit` -/

/-- `_text_to_patch(text, orig)`. -/
def textToPatch (text : String) (orig : FileMap) : Except String (Patch × Nat) :=
  let lines := splitNl (pyStrip text)
  if lines.length < 2 ∨ ¬ strStartsWith (lines.headD "") "*** Begin Patch"
      ∨ ¬ lines.getLastD "" = "*** End Patch" then
    .error "Invalid patch text"
  else
    match parseLoop orig lines (lines.length + 1) 1 0 [] with
    | .error e => .error e
    | .ok (actions, fuzz, _) => .ok ({ actions := actions }, fuzz)

/-- Appending a path if not already present (Python builds a `set`; its
iteration order is unspecified, we keep first-occurrence order — only the
order of the resulting list differs, never its membership). -/
def insertUnique (l : List String) (x : String) : List String :=
  if l.contains x then l else l ++ [x]

/-- `_identify_files_needed(text)`: every `*** Update File: ` /
`*** Delete File: ` line of the raw text contributes its path. -/
def identifyFilesNeeded (text : String) : List String :=
  (splitNl (pyStrip text)).foldl
    (fun acc line =>
      let acc1 := if strStartsWith line "*** Update File: " then
                    insertUnique acc (strDrop line "*** Update File: ".data.length)
                  else acc
      if strStartsWith line "*** Delete File: " then
        insertUnique acc1 (strDrop line "*** Delete File: ".data.length)
      else acc1)
    []

/-- `_patch_to_commit(patch, orig)` (the `orig[path]` dict accesses cannot
fail for parser-produced patches; a missing key is a `KeyError`, modelled as
an error). -/
def patchToCommitAux (orig : FileMap) :
    List (String × PatchAction) → Except String (List (String × FileChange))
  | [] => .ok []
  | (path, action) :: rest =>
    match action.type with
    | .delete =>
      match List.lookup path orig with
      | none => .error ("KeyError: " ++ path)
      | some c =>
        match patchToCommitAux orig rest with
        | .error e => .error e
        | .ok restC => .ok ((path, { type := .delete, old_content := some c }) :: restC)
    | .add =>
      match patchToCommitAux orig rest with
      | .error e => .error e
      | .ok restC =>
        .ok ((path, { type := .add, new_content := action.new_file }) :: restC)
    | .update =>
      match List.lookup path orig with
      | none => .error ("KeyError: " ++ path)
      | some c =>
        match getUpdatedFile c action path with
        | .error e => .error e
        | .ok nc =>
          match patchToCommitAux orig rest with
          | .error e => .error e
          | .ok restC =>
            .ok ((path, { type := .update, old_content := some c,
                          new_content := some nc,
                          move_path := action.move_path }) :: restC)

def patchToCommit (patch : Patch) (orig : FileMap) : Except String Commit :=
  match patchToCommitAux orig patch.actions with
  | .error e => .error e
  | .ok changes => .ok { changes := changes }

/-- The effect of `_apply_commit` on the injected write/remove capabilities,
as the ordered list of store operations it issues. -/
inductive FileOp
  | write (path content : String)
  | remove (path : String)
deriving DecidableEq, Repr

/-- Operations issued for one `FileChange` (`None` new content would be
written as-is by Python; parser-produced Add/Update changes always carry
content, `getD ""` only covers the unreachable `none`). -/
def changeOps (path : String) (ch : FileChange) : List FileOp :=
  match ch.type with
  | .delete => [.remove path]
  | .add => [.write path (ch.new_content.getD "")]
  | .update =>
    match ch.move_path with
    | some mp => [.write mp (ch.new_content.getD ""), .remove path]
    | none => [.write path (ch.new_content.getD "")]

def applyCommit (c : Commit) : List FileOp :=
  (c.changes.map (fun pc => changeOps pc.1 pc.2)).flatten

/-! ## Facade: `_load_files` and `_process_v4a_diff` (up to the store) -/

/-- `_load_files(paths)` against an in-memory store (the injected read
capability); a missing path is the `DiffError("File not found: ...")` of
`_open_file`. -/
def loadFiles (store : FileMap) : List String → Except String FileMap
  | [] => .ok []
  | p :: ps =>
    match List.lookup p store with
    | none => .error ("File not found: " ++ p)
    | some c =>
      match loadFiles store ps with
      | .error e => .error e
      | .ok rest => .ok ((p, c) :: rest)

/-- `ApplyPatchTool._process_v4a_diff(diff_text)` up to (and including) the
commit computation; the final `_apply_commit` store writes are captured by
`applyCommit`. -/
def processV4ADiff (diffText : String) (store : FileMap) : Except String Commit :=
  let wrapped := if ¬ strStartsWith (pyStrip diffText) "*** Begin Patch" then
                   "*** Begin Patch\n" ++ diffText ++ "\n*** End Patch"
                 else diffText
  let paths := identifyFilesNeeded wrapped
  match loadFiles store paths with
  | .error e => .error e
  | .ok orig =>
    match textToPatch wrapped orig with
    | .error e => .error e
    | .ok (patch, _) => patchToCommit patch orig

/-! ## `ApplyPatchTool._validate_path` and `posixpath` helpers -/

/-- The component loop of CPython's `posixpath.normpath`. -/
def normpathComps (initialSlashes : Nat) (acc : List String) :
    List String → List String
  | [] => acc
  | comp :: rest =>
    if comp = "" ∨ comp = "." then normpathComps initialSlashes acc rest
    else if ¬ comp = ".." ∨ (initialSlashes = 0 ∧ acc = [])
            ∨ (¬ acc = [] ∧ acc.getLastD "" = "..") then
      normpathComps initialSlashes (acc ++ [comp]) rest
    else if ¬ acc = [] then normpathComps initialSlashes acc.dropLast rest
    else normpathComps initialSlashes acc rest

/-- `"/" * n`. -/
def slashes : Nat → String
  | 0 => ""
  | n + 1 => "/" ++ slashes n

/-- `os.path.normpath` (POSIX flavour, as on the Linux host). -/
def normpath (path : String) : String :=
  if path = "" then "."
  else
    let initialSlashes : Nat :=
      if strStartsWith path "/" then
        (if strStartsWith path "//" ∧ ¬ strStartsWith path "///" then 2 else 1)
      else 0
    let res := slashes initialSlashes ++ joinSlash (normpathComps initialSlashes [] (splitSlash path))
    if res = "" then "." else res

/-- `os.path.join(base, p)` for two POSIX components. -/
def joinPath (base p : String) : String :=
  if strStartsWith p "/" then p
  else if base = "" ∨ strEndsWith base "/" then base ++ p
  else base ++ "/" ++ p

/-- `ApplyPatchTool._validate_path(path)` with the already-absolute
configured `base_path`. -/
def validatePath (basePath p : String) : Except String String :=
  if strStartsWith p "/" then .error ("Absolute paths are not allowed: " ++ p)
  else
    let full := normpath (joinPath basePath p)
    if ¬ strStartsWith full basePath then .error ("Path traversal detected: " ++ p)
    else .ok full

/-- Modelled from the spec: a resolved path lies inside the base directory
iff it is the base directory itself or a proper descendant of it. -/
def isWithin (basePath full : String) : Bool :=
  full = basePath || strStartsWith full (basePath ++ "/")

/-! ## `ApplyPatchTool._parse_create_diff` -/

/-- The line loop of `_parse_create_diff`: `acc` is `content_lines`. -/
def createLoop : List String → List String → List String
  | [], acc => acc
  | line :: rest, acc =>
    if line = "" ∧ acc = [] then createLoop rest acc
    else if strStartsWith line "+" then createLoop rest (acc ++ [strDrop line 1])
    else if strStartsWith line " " then createLoop rest (acc ++ [strDrop line 1])
    else if line = "" then createLoop rest (acc ++ [""])
    else createLoop rest acc

/-- `ApplyPatchTool._parse_create_diff(diff)` — a total function. -/
def parseCreateDiff (diff : String) : String :=
  joinNl (createLoop (splitNl (pyStrip diff)) [])

/-! ## Spec-side predicates used to state claims -/

/-- End offset of a chunk inside the original lines. -/
def chunkEnd (c : Chunk) : Nat := c.orig_index + c.del_lines.length

/-- The claimed chunk ordering relation: a chunk ends at or before the next
one starts. -/
def chunkRel (c1 c2 : Chunk) : Prop := chunkEnd c1 ≤ c2.orig_index

/-- Modelled from the spec (§ Commit Builder): the per-chunk applicability
conditions of `_get_updated_file` — each anchor is within the file and at or
after the running cursor `anchor + len(removedLines)`. -/
def chunksApplicable (n : Nat) : Nat → List Chunk → Bool
  | _, [] => true
  | cursor, c :: rest =>
    decide (c.orig_index ≤ n) && decide (cursor ≤ c.orig_index)
      && chunksApplicable n (c.orig_index + c.del_lines.length) rest

/-- `i` is the first index at or after `start` where the window matches
under the tier map `f`. -/
def firstMatchFrom (lines context : List String) (f : String → String)
    (start i : Nat) : Prop :=
  start ≤ i ∧ matchWindow lines context f i = true
    ∧ ∀ j, start ≤ j → j < i → matchWindow lines context f j = false

/-- Invariant of the `_peek_next_section` scan: already flushed chunks are
non-overlapping, the pending removed lines are a suffix of `old`, and every
flushed chunk ends before the position where the pending chunk would start. -/
def PeekInv (st : PeekState) : Prop :=
  List.Chain' chunkRel st.chunks ∧ st.delLines.length ≤ st.old.length
    ∧ ∀ c ∈ st.chunks, chunkEnd c + st.delLines.length ≤ st.old.length

/-- Invariant of the `parse_update_file` hunk loop: accumulated chunks are
non-overlapping and all end at or before the file-side scan cursor. -/
def UpdInv (st : UpdState) : Prop :=
  List.Chain' chunkRel st.chunks ∧ ∀ c ∈ st.chunks, chunkEnd c ≤ st.cur

/-! # Helper lemmas -/

theorem joinCharsOn_splitCharsOn (sep : Char) (cs : List Char) :
    joinCharsOn sep (splitCharsOn sep cs) = cs := by
  induction cs with
  | nil => rfl
  | cons c rest ih =>
    have hne : splitCharsOn sep rest ≠ [] := by
      cases rest with
      | nil => simp [splitCharsOn]
      | cons d t =>
        simp only [splitCharsOn]
        split
        · simp
        · cases h : splitCharsOn sep t <;> simp
    simp only [splitCharsOn]
    by_cases hc : c = sep
    · simp only [if_pos hc]
      cases h : splitCharsOn sep rest with
      | nil => exact absurd h hne
      | cons x xs =>
        rw [h] at ih
        simp only [joinCharsOn]
        rw [← hc] at ih ⊢
        rw [ih]
        rfl
    · simp only [if_neg hc]
      cases h : splitCharsOn sep rest with
      | nil => exact absurd h hne
      | cons x xs =>
        rw [h] at ih
        cases xs with
        | nil => simp only [joinCharsOn] at ih ⊢; rw [ih]
        | cons y ys =>
          simp only [joinCharsOn] at ih ⊢
          rw [List.cons_append, ih]

theorem joinNl_splitNl (s : String) : joinNl (splitNl s) = s := by
  show String.mk (joinCharsOn '\n' (((splitCharsOn '\n' s.data).map String.mk).map String.data)) = s
  rw [List.map_map]
  have : (String.data ∘ String.mk) = id := by
    funext l; rfl
  rw [this, List.map_id, joinCharsOn_splitCharsOn]

theorem matchWindow_false_of_len_le (lines context : List String) (f : String → String)
    (i : Nat) (hne : context ≠ []) (h : lines.length ≤ i) :
    matchWindow lines context f i = false := by
  unfold matchWindow
  rw [List.drop_eq_nil_of_le h]
  simp only [List.take_nil, List.map_nil, decide_eq_false_iff_not]
  intro hc
  exact hne (List.map_eq_nil_iff.mp hc.symm)

theorem scanWindowAux_some (lines context : List String) (f : String → String) :
    ∀ rest i k, scanWindowAux lines context f rest i = some k →
      i ≤ k ∧ matchWindow lines context f k = true
        ∧ ∀ j, i ≤ j → j < k → matchWindow lines context f j = false := by
  intro rest
  induction rest with
  | nil => intro i k h; simp [scanWindowAux] at h
  | cons x rs ih =>
    intro i k h
    simp only [scanWindowAux] at h
    by_cases hm : matchWindow lines context f i = true
    · rw [if_pos hm] at h
      cases h
      exact ⟨le_refl _, hm, fun j h1 h2 => absurd (lt_of_le_of_lt h1 h2) (lt_irrefl _)⟩
    · rw [if_neg hm] at h
      obtain ⟨h1, h2, h3⟩ := ih (i + 1) k h
      refine ⟨by omega, h2, fun j hj1 hj2 => ?_⟩
      rcases Nat.eq_or_lt_of_le hj1 with rfl | hlt
      · exact Bool.eq_false_iff.mpr hm
      · exact h3 j hlt hj2

theorem scanWindowAux_none (lines context : List String) (f : String → String)
    (hne : context ≠ []) :
    ∀ rest i, rest = lines.drop i → scanWindowAux lines context f rest i = none →
      ∀ j, i ≤ j → matchWindow lines context f j = false := by
  intro rest
  induction rest with
  | nil =>
    intro i hd _ j hij
    have hlen : lines.length ≤ i := by
      by_contra hc
      push_neg at hc
      have := List.drop_eq_nil_iff.mp hd.symm
      omega
    exact matchWindow_false_of_len_le lines context f j hne (le_trans hlen hij)
  | cons x rs ih =>
    intro i hd h j hij
    simp only [scanWindowAux] at h
    by_cases hm : matchWindow lines context f i = true
    · rw [if_pos hm] at h; cases h
    · rw [if_neg hm] at h
      have hrs : rs = lines.drop (i + 1) := by
        rw [← List.tail_drop, ← hd]
        rfl
      rcases Nat.eq_or_lt_of_le hij with rfl | hlt
      · exact Bool.eq_false_iff.mpr hm
      · exact ih (i + 1) hrs h j hlt

theorem scanWindow_some (lines context : List String) (f : String → String)
    (start k : Nat) (h : scanWindow lines context f start = some k) :
    firstMatchFrom lines context f start k :=
  scanWindowAux_some lines context f (lines.drop start) start k h

theorem scanWindow_none (lines context : List String) (f : String → String)
    (start : Nat) (hne : context ≠ []) (h : scanWindow lines context f start = none) :
    ∀ j, start ≤ j → matchWindow lines context f j = false :=
  scanWindowAux_none lines context f hne (lines.drop start) start rfl h

theorem scanWindow_none_of_nomatch (lines context : List String) (f : String → String)
    (start : Nat) (h : ∀ j, start ≤ j → matchWindow lines context f j = false) :
    scanWindow lines context f start = none := by
  cases hs : scanWindow lines context f start with
  | none => rfl
  | some k =>
    obtain ⟨h1, h2, _⟩ := scanWindow_some lines context f start k hs
    rw [h k h1] at h2
    cases h2

theorem scanWindow_self (lines context : List String) (f : String → String)
    (i : Nat) (hne : context ≠ []) (hm : matchWindow lines context f i = true) :
    scanWindow lines context f i = some i := by
  have hdrop : lines.drop i ≠ [] := by
    intro hd
    have := matchWindow_false_of_len_le lines context f i hne
      (by have := List.drop_eq_nil_iff.mp hd; omega)
    rw [hm] at this; cases this
  unfold scanWindow
  cases hd : lines.drop i with
  | nil => exact absurd hd hdrop
  | cons x rs => simp [scanWindowAux, hm]

theorem findContextCore_some_ge (lines context : List String) (start i : Nat)
    (fz : Nat) (h : findContextCore lines context start = (some i, fz)) : start ≤ i := by
  unfold findContextCore at h
  by_cases he : context.isEmpty
  · rw [if_pos he] at h
    cases h
    exact le_refl _
  · rw [if_neg he] at h
    cases h1 : scanWindow lines context id start with
    | some k =>
      rw [h1] at h
      simp only [Prod.mk.injEq, Option.some.injEq] at h
      obtain ⟨rfl, -⟩ := h
      exact (scanWindow_some lines context id start _ h1).1
    | none =>
      rw [h1] at h
      cases h2 : scanWindow lines context pyRstrip start with
      | some k =>
        rw [h2] at h
        simp only [Prod.mk.injEq, Option.some.injEq] at h
        obtain ⟨rfl, -⟩ := h
        exact (scanWindow_some lines context pyRstrip start _ h2).1
      | none =>
        rw [h2] at h
        cases h3 : scanWindow lines context pyStrip start with
        | some k =>
          rw [h3] at h
          simp only [Prod.mk.injEq, Option.some.injEq] at h
          obtain ⟨rfl, -⟩ := h
          exact (scanWindow_some lines context pyStrip start _ h3).1
        | none =>
          rw [h3] at h
          simp at h

theorem findFromAux_some_ge (p : String → Bool) :
    ∀ rest i k, findFromAux p rest i = some k → i ≤ k := by
  intro rest
  induction rest with
  | nil => intro i k h; simp [findFromAux] at h
  | cons x rs ih =>
    intro i k h
    simp only [findFromAux] at h
    by_cases hp : p x = true
    · rw [if_pos hp] at h; cases h; exact le_refl _
    · rw [if_neg hp] at h
      have := ih (i + 1) k h
      omega

theorem findFromAux_none_of (p : String → Bool) :
    ∀ rest i, (∀ s ∈ rest, p s = false) → findFromAux p rest i = none := by
  intro rest
  induction rest with
  | nil => intro i _; rfl
  | cons x rs ih =>
    intro i h
    simp only [findFromAux]
    rw [h x (List.mem_cons_self x rs)]
    simp only [Bool.false_eq_true, if_false]
    exact ih (i + 1) (fun s hs => h s (List.mem_cons_of_mem x hs))

theorem resolveAnchor_ge (flines : List String) (cur : Nat) (defStr : String)
    (fuzz : Nat) : cur ≤ (resolveAnchor flines cur defStr fuzz).1 := by
  unfold resolveAnchor
  cases hfwd : (if (flines.take cur).any (fun s => s = defStr) then none
                else findFrom flines (fun s => s = defStr) cur) with
  | some i =>
    have hci : cur ≤ i := by
      by_cases hh : (flines.take cur).any (fun s => s = defStr) = true
      · rw [if_pos hh] at hfwd; cases hfwd
      · rw [if_neg hh] at hfwd
        exact findFromAux_some_ge _ _ _ _ hfwd
    simpa using Nat.le_succ_of_le hci
  | none =>
    by_cases h2 : (flines.take cur).any (fun s => pyStrip s = pyStrip defStr) = true
    · simp [h2]
    · rw [if_neg h2]
      cases h3 : findFrom flines (fun s => pyStrip s = pyStrip defStr) cur with
      | none => simp
      | some i =>
        have := findFromAux_some_ge _ _ _ _ h3
        simpa using Nat.le_succ_of_le this

theorem chain'_append_one {l : List Chunk} {c : Chunk}
    (h : List.Chain' chunkRel l) (h2 : ∀ x ∈ l, chunkRel x c) :
    List.Chain' chunkRel (l ++ [c]) := by
  rw [List.chain'_append]
  refine ⟨h, List.chain'_singleton c, ?_⟩
  intro x hx y hy
  simp only [List.head?_cons, Option.mem_def, Option.some.injEq] at hy
  subst hy
  exact h2 x (List.mem_of_getLast?_eq_some hx)

theorem flushChunk_chain (st : PeekState) (h : PeekInv st) :
    List.Chain' chunkRel (flushChunk st) := by
  obtain ⟨h1, h2, h3⟩ := h
  refine chain'_append_one h1 ?_
  intro x hx
  have hx3 := h3 x hx
  simp only [chunkRel, chunkEnd] at hx3 ⊢
  omega

theorem flushChunk_ends (st : PeekState) (h : PeekInv st) :
    ∀ c ∈ flushChunk st, chunkEnd c ≤ st.old.length := by
  obtain ⟨h1, h2, h3⟩ := h
  intro c hc
  unfold flushChunk at hc
  rw [List.mem_append] at hc
  rcases hc with hc | hc
  · have hx3 := h3 c hc
    simp only [chunkEnd] at hx3 ⊢
    omega
  · simp only [List.mem_singleton] at hc
    subst hc
    simp only [chunkEnd]
    omega

theorem peekStep_inv (st : PeekState) (m : Mode) (tl : String) (h : PeekInv st) :
    PeekInv (peekStep st m tl) := by
  obtain ⟨h1, h2, h3⟩ := h
  cases m with
  | add =>
    have hfl : peekFlush st Mode.add = st := by
      unfold peekFlush
      rw [if_neg (by intro hcon; cases hcon.1)]
    simp only [peekStep, hfl, peekAppend]
    exact ⟨h1, h2, h3⟩
  | delete =>
    have hfl : peekFlush st Mode.delete = st := by
      unfold peekFlush
      rw [if_neg (by intro hcon; cases hcon.1)]
    simp only [peekStep, hfl, peekAppend]
    refine ⟨h1, ?_, ?_⟩
    · simp only [List.length_append]; omega
    · intro x hx
      have := h3 x hx
      simp only [List.length_append, List.length_cons, List.length_nil]
      omega
  | keep =>
    by_cases hswitch : st.mode = Mode.keep
    · have hfl : peekFlush st Mode.keep = st := by
        unfold peekFlush
        rw [if_neg (by intro hcon; exact hcon.2 hswitch)]
      simp only [peekStep, hfl, peekAppend]
      refine ⟨h1, ?_, ?_⟩
      · simp only [List.length_append]; omega
      · intro x hx
        have := h3 x hx
        simp only [List.length_append, List.length_cons, List.length_nil]
        omega
    · have hfl : peekFlush st Mode.keep =
          { st with
            chunks := if ¬ st.insLines = [] ∨ ¬ st.delLines = [] then flushChunk st
                      else st.chunks,
            delLines := [], insLines := [] } := by
        unfold peekFlush
        rw [if_pos ⟨rfl, hswitch⟩]
      simp only [peekStep, hfl, peekAppend]
      by_cases hflush : ¬ st.insLines = [] ∨ ¬ st.delLines = []
      · rw [if_pos hflush]
        refine ⟨flushChunk_chain st ⟨h1, h2, h3⟩, ?_, ?_⟩
        · simp
        · intro x hx
          have hfe := flushChunk_ends st ⟨h1, h2, h3⟩ x hx
          simp only [List.length_append, List.length_cons, List.length_nil]
          omega
      · rw [if_neg hflush]
        refine ⟨h1, ?_, ?_⟩
        · simp
        · intro x hx
          have hx3 := h3 x hx
          simp only [List.length_append, List.length_cons, List.length_nil]
          omega

theorem peekLoop_inv (plines : List String) :
    ∀ fuel index st res idx,
      peekLoop plines fuel index st = .ok (res, idx) →
      PeekInv st → PeekInv res ∧ index ≤ idx := by
  intro fuel
  induction fuel with
  | zero => intro index st res idx h; simp [peekLoop] at h
  | succ fuel ih =>
    intro index st res idx h hinv
    rw [peekLoop] at h
    split at h
    · simp only [Except.ok.injEq, Prod.mk.injEq] at h
      obtain ⟨rfl, rfl⟩ := h
      exact ⟨hinv, le_refl _⟩
    · split at h
      · simp only [Except.ok.injEq, Prod.mk.injEq] at h
        obtain ⟨rfl, rfl⟩ := h
        exact ⟨hinv, le_refl _⟩
      · split at h
        · simp only [Except.ok.injEq, Prod.mk.injEq] at h
          obtain ⟨rfl, rfl⟩ := h
          exact ⟨hinv, le_refl _⟩
        · split at h
          · exact Except.noConfusion h
          · split at h
            · exact Except.noConfusion h
            · split at h
              · have hres := ih (index + 1) _ res idx h (peekStep_inv _ _ _ hinv)
                exact ⟨hres.1, by omega⟩
              · exact Except.noConfusion h

theorem peekLoop_ge (plines : List String) :
    ∀ fuel index st res idx,
      peekLoop plines fuel index st = .ok (res, idx) → index ≤ idx := by
  intro fuel
  induction fuel with
  | zero => intro index st res idx h; simp [peekLoop] at h
  | succ fuel ih =>
    intro index st res idx h
    rw [peekLoop] at h
    split at h
    · simp only [Except.ok.injEq, Prod.mk.injEq] at h
      omega
    · split at h
      · simp only [Except.ok.injEq, Prod.mk.injEq] at h
        omega
      · split at h
        · simp only [Except.ok.injEq, Prod.mk.injEq] at h
          omega
        · split at h
          · exact Except.noConfusion h
          · split at h
            · exact Except.noConfusion h
            · split at h
              · have := ih (index + 1) _ res idx h
                omega
              · exact Except.noConfusion h

/-- A line read at an index inside `[p0, pend)` belongs to the corresponding
region of the line list. -/
theorem mem_region (plines : List String) (p0 pend index : Nat) (l : String)
    (hl : plines[index]? = some l) (h0 : p0 ≤ index) (h1 : index < pend) :
    l ∈ (plines.drop p0).take (pend - p0) := by
  refine List.mem_iff_getElem?.mpr ⟨index - p0, ?_⟩
  rw [List.getElem?_take_of_lt (by omega), List.getElem?_drop]
  rw [show p0 + (index - p0) = index by omega]
  exact hl

theorem peekFinal_chain (st : PeekState) (h : PeekInv st) :
    List.Chain' chunkRel (peekFinal st) := by
  unfold peekFinal
  split
  · exact flushChunk_chain st h
  · exact h.1

theorem peekFinal_ends (st : PeekState) (h : PeekInv st) :
    ∀ c ∈ peekFinal st, chunkEnd c ≤ st.old.length := by
  unfold peekFinal
  split
  · exact flushChunk_ends st h
  · intro c hc
    have := h.2.2 c hc
    omega

theorem peekNextSection_spec (plines : List String) (index : Nat)
    (old : List String) (chunks : List Chunk) (endIdx : Nat) (eof : Bool)
    (h : peekNextSection plines index = .ok (old, chunks, endIdx, eof)) :
    List.Chain' chunkRel chunks ∧ (∀ c ∈ chunks, chunkEnd c ≤ old.length)
      ∧ index ≤ endIdx ∧ (eof = true → "*** End of File" ∈ plines) := by
  unfold peekNextSection at h
  split at h
  · exact Except.noConfusion h
  next st idx heq =>
    have hinv0 : PeekInv ⟨[], [], [], [], Mode.keep⟩ :=
      ⟨List.chain'_nil, by simp, by simp⟩
    have hloop := peekLoop_inv plines _ index _ st idx heq hinv0
    split at h
    next heof =>
      simp only [Except.ok.injEq, Prod.mk.injEq] at h
      obtain ⟨rfl, rfl, rfl, rfl⟩ := h
      refine ⟨peekFinal_chain st hloop.1, peekFinal_ends st hloop.1, by omega, ?_⟩
      intro _
      exact List.mem_iff_getElem?.mpr ⟨idx, heof⟩
    · split at h
      · exact Except.noConfusion h
      · simp only [Except.ok.injEq, Prod.mk.injEq] at h
        obtain ⟨rfl, rfl, rfl, rfl⟩ := h
        refine ⟨peekFinal_chain st hloop.1, peekFinal_ends st hloop.1, by omega, ?_⟩
        intro hcon
        cases hcon

theorem anchorStep_ge (flines : List String) (cur : Nat) (defStr : String)
    (fuzz : Nat) : cur ≤ (anchorStep flines cur defStr fuzz).1 := by
  unfold anchorStep
  split
  · exact resolveAnchor_ge flines cur defStr fuzz
  · exact le_refl _

theorem findContext_forward (flines old : List String) (start : Nat) (i fz : Nat)
    (h : findContext flines old start false = (some i, fz)) : start ≤ i := by
  unfold findContext at h
  rw [if_neg Bool.false_ne_true] at h
  exact findContextCore_some_ge flines old start i fz h

theorem chain'_shift (l : List Chunk) (n : Nat) (h : List.Chain' chunkRel l) :
    List.Chain' chunkRel (l.map (fun c => { c with orig_index := c.orig_index + n })) := by
  rw [List.chain'_map]
  refine h.imp ?_
  intro a b hab
  simp only [chunkRel, chunkEnd] at hab ⊢
  omega

theorem parseUpdateLoop_inv (plines flines : List String)
    (hno : "*** End of File" ∉ plines) :
    ∀ fuel st res, parseUpdateLoop plines flines fuel st = .ok res →
      UpdInv st → UpdInv res := by
  intro fuel
  induction fuel with
  | zero => intro st res h; simp [parseUpdateLoop] at h
  | succ fuel ih =>
    intro st res h hinv
    rw [parseUpdateLoop] at h
    split at h
    · simp only [Except.ok.injEq] at h; subst h; exact hinv
    · split at h
      · simp only [Except.ok.injEq] at h; subst h; exact hinv
      · split at h
        · exact Except.noConfusion h
        next defStr sectionStr p2 hhdr =>
          split at h
          · exact Except.noConfusion h
          · split at h
            · exact Except.noConfusion h
            next old chunksRel endIdx eof hpeek =>
              split at h
              · exact Except.noConfusion h
              next newIndex f2 hfind =>
                apply ih _ res h
                obtain ⟨hch, hends, hge, hmem⟩ :=
                  peekNextSection_spec plines p2 old chunksRel endIdx eof hpeek
                have heof : eof = false := by
                  cases eof
                  · rfl
                  · exact absurd (hmem rfl) hno
                rw [heof] at hfind
                have hnge : (anchorStep flines st.cur defStr st.fuzz).1 ≤ newIndex :=
                  findContext_forward _ _ _ _ _ hfind
                have hange : st.cur ≤ (anchorStep flines st.cur defStr st.fuzz).1 :=
                  anchorStep_ge flines st.cur defStr st.fuzz
                obtain ⟨hich, hiend⟩ := hinv
                constructor
                · rw [List.chain'_append]
                  refine ⟨hich, chain'_shift _ _ hch, ?_⟩
                  intro x hx y hy
                  have hxe := hiend x (List.mem_of_getLast?_eq_some hx)
                  rw [List.head?_map] at hy
                  simp only [Option.mem_def, Option.map_eq_some'] at hy
                  obtain ⟨y0, hy0, rfl⟩ := hy
                  simp only [chunkRel, chunkEnd] at hxe ⊢
                  omega
                · intro c hc
                  rw [List.mem_append] at hc
                  rcases hc with hc | hc
                  · have := hiend c hc
                    simp only [chunkEnd] at this ⊢
                    omega
                  · rw [List.mem_map] at hc
                    obtain ⟨c0, hc0, rfl⟩ := hc
                    have := hends c0 hc0
                    simp only [chunkEnd] at this ⊢
                    omega

theorem applyChunks_isOk (origLines : List String) :
    ∀ chs cursor, isOkE (applyChunks origLines cursor chs)
      = chunksApplicable origLines.length cursor chs := by
  intro chs
  induction chs with
  | nil => intro cursor; rfl
  | cons c rest ih =>
    intro cursor
    rw [applyChunks, chunksApplicable]
    by_cases h1 : c.orig_index > origLines.length
    · rw [if_pos h1]
      have hd1 : decide (c.orig_index ≤ origLines.length) = false := by
        simp only [decide_eq_false_iff_not]
        omega
      simp [hd1, isOkE]
    · rw [if_neg h1]
      have e1 : decide (c.orig_index ≤ origLines.length) = true := by
        simp only [decide_eq_true_eq]
        omega
      by_cases h2 : cursor > c.orig_index
      · rw [if_pos h2, e1]
        have hd2 : decide (cursor ≤ c.orig_index) = false := by
          simp only [decide_eq_false_iff_not]
          omega
        simp [hd2, isOkE]
      · rw [if_neg h2, e1]
        have e2 : decide (cursor ≤ c.orig_index) = true := by
          simp only [decide_eq_true_eq]
          omega
        rw [e2]
        simp only [Bool.true_and]
        rw [← ih (c.orig_index + c.del_lines.length)]
        cases applyChunks origLines (c.orig_index + c.del_lines.length) rest with
        | error e => rfl
        | ok dest => rfl

theorem applyChunks_length (origLines : List String) :
    ∀ chs cursor out, applyChunks origLines cursor chs = .ok out →
      cursor ≤ origLines.length →
      (∀ c ∈ chs, chunkEnd c ≤ origLines.length) →
      out.length + (chs.map (fun c => c.del_lines.length)).sum
        = (origLines.length - cursor) + (chs.map (fun c => c.ins_lines.length)).sum := by
  intro chs
  induction chs with
  | nil =>
    intro cursor out h hcur _
    rw [applyChunks] at h
    simp only [Except.ok.injEq] at h
    subst h
    simp
  | cons c rest ih =>
    intro cursor out h hcur hend
    rw [applyChunks] at h
    split at h
    · exact Except.noConfusion h
    · split at h
      · exact Except.noConfusion h
      · split at h
        · exact Except.noConfusion h
        next dest hdest =>
          simp only [Except.ok.injEq] at h
          subst h
          have hce : chunkEnd c ≤ origLines.length :=
            hend c (List.mem_cons_self c rest)
          simp only [chunkEnd] at hce
          have hrec := ih (c.orig_index + c.del_lines.length) dest hdest
            (by omega) (fun x hx => hend x (List.mem_cons_of_mem c hx))
          simp only [List.map_cons, List.sum_cons, List.length_append,
            List.length_take, List.length_drop]
          omega

/-- A hunk body whose consumed lines (all inside the region `[p0, pend)` of
the patch lines) contain no `'+'`/`'-'` lines produces no pending del/ins
lines and no chunks. -/
theorem peekLoop_nochunks (plines : List String) (p0 pend : Nat)
    (hp : ∀ l ∈ (plines.drop p0).take (pend - p0),
      strStartsWith l "+" = false ∧ strStartsWith l "-" = false) :
    ∀ fuel index st res idx, p0 ≤ index → idx ≤ pend →
      peekLoop plines fuel index st = .ok (res, idx) →
      st.delLines = [] → st.insLines = [] → st.chunks = [] →
      res.delLines = [] ∧ res.insLines = [] ∧ res.chunks = [] := by
  intro fuel
  induction fuel with
  | zero => intro index st res idx _ _ h; simp [peekLoop] at h
  | succ fuel ih =>
    intro index st res idx hge hub h hdel hins hchs
    rw [peekLoop] at h
    split at h
    · simp only [Except.ok.injEq, Prod.mk.injEq] at h
      obtain ⟨rfl, rfl⟩ := h
      exact ⟨hdel, hins, hchs⟩
    next s hline =>
      split at h
      · simp only [Except.ok.injEq, Prod.mk.injEq] at h
        obtain ⟨rfl, rfl⟩ := h
        exact ⟨hdel, hins, hchs⟩
      · split at h
        · simp only [Except.ok.injEq, Prod.mk.injEq] at h
          obtain ⟨rfl, rfl⟩ := h
          exact ⟨hdel, hins, hchs⟩
        · split at h
          · exact Except.noConfusion h
          · split at h
            · exact Except.noConfusion h
            next c rest hdata =>
              split at h
              next hc =>
                have hlt : index < idx := by
                  have := peekLoop_ge plines fuel (index + 1) _ res idx h
                  omega
                have hmem : s ∈ (plines.drop p0).take (pend - p0) :=
                  mem_region plines p0 pend index s hline hge (by omega)
                have hs := hp s hmem
                have hck : classify c = Mode.keep := by
                  unfold classify
                  by_cases hplus : c = '+'
                  · exfalso
                    by_cases hsempty : s = ""
                    · rw [if_pos hsempty] at hdata
                      rw [hplus] at hdata
                      simp at hdata
                    · rw [if_neg hsempty] at hdata
                      have : strStartsWith s "+" = true := by
                        unfold strStartsWith
                        rw [hdata, hplus]
                        simp [List.isPrefixOf]
                      rw [hs.1] at this
                      cases this
                  · by_cases hminus : c = '-'
                    · exfalso
                      by_cases hsempty : s = ""
                      · rw [if_pos hsempty] at hdata
                        rw [hminus] at hdata
                        simp at hdata
                      · rw [if_neg hsempty] at hdata
                        have : strStartsWith s "-" = true := by
                          unfold strStartsWith
                          rw [hdata, hminus]
                          simp [List.isPrefixOf]
                        rw [hs.2] at this
                        cases this
                    · rw [if_neg hplus, if_neg hminus]
                have hstep : peekStep st (classify c) (String.mk rest)
                    = { st with old := st.old ++ [String.mk rest], mode := Mode.keep } := by
                  rw [hck]
                  obtain ⟨o, d, i2, ch, m⟩ := st
                  simp only at hdel hins hchs
                  subst hdel
                  subst hins
                  simp only [peekStep, peekFlush, peekAppend]
                  split
                  · simp
                  · simp
                rw [hstep] at h
                exact ih (index + 1) _ res idx (by omega) hub h hdel hins hchs
              · exact Except.noConfusion h

theorem peekNextSection_nochunks (plines : List String) (p0 pend index : Nat)
    (old : List String) (chunks : List Chunk) (endIdx : Nat) (eof : Bool)
    (hp : ∀ l ∈ (plines.drop p0).take (pend - p0),
      strStartsWith l "+" = false ∧ strStartsWith l "-" = false)
    (hge : p0 ≤ index) (hub : endIdx ≤ pend)
    (h : peekNextSection plines index = .ok (old, chunks, endIdx, eof)) :
    chunks = [] := by
  unfold peekNextSection at h
  split at h
  · exact Except.noConfusion h
  next st idx heq =>
    split at h
    next heof =>
      simp only [Except.ok.injEq, Prod.mk.injEq] at h
      obtain ⟨rfl, rfl, rfl, rfl⟩ := h
      have hnc := peekLoop_nochunks plines p0 pend hp _ index _ st idx hge
        (by omega) heq rfl rfl rfl
      unfold peekFinal
      rw [hnc.1, hnc.2.1]
      rw [if_neg (by simp)]
      exact hnc.2.2
    · split at h
      · exact Except.noConfusion h
      · simp only [Except.ok.injEq, Prod.mk.injEq] at h
        obtain ⟨rfl, rfl, rfl, rfl⟩ := h
        have hnc := peekLoop_nochunks plines p0 pend hp _ index _ st idx hge
          hub heq rfl rfl rfl
        unfold peekFinal
        rw [hnc.1, hnc.2.1]
        rw [if_neg (by simp)]
        exact hnc.2.2

theorem readHunkHeader_ge (plines : List String) (pindex : Nat) (d s : String)
    (p2 : Nat) (h : readHunkHeader plines pindex = .ok (d, s, p2)) :
    pindex ≤ p2 := by
  unfold readHunkHeader at h
  split at h
  · exact Except.noConfusion h
  · split at h
    · split at h
      · simp only [Except.ok.injEq, Prod.mk.injEq] at h
        omega
      · split at h
        · exact Except.noConfusion h
        · split at h
          · simp only [Except.ok.injEq, Prod.mk.injEq] at h
            omega
          · simp only [Except.ok.injEq, Prod.mk.injEq] at h
            omega
    · split at h
      · simp only [Except.ok.injEq, Prod.mk.injEq] at h
        omega
      · simp only [Except.ok.injEq, Prod.mk.injEq] at h
        omega

/-- `parse_update_file` only moves its patch-line index forward. -/
theorem parseUpdateLoop_mono (plines flines : List String) :
    ∀ fuel st res, parseUpdateLoop plines flines fuel st = .ok res →
      st.pindex ≤ res.pindex := by
  intro fuel
  induction fuel with
  | zero => intro st res h; simp [parseUpdateLoop] at h
  | succ fuel ih =>
    intro st res h
    rw [parseUpdateLoop] at h
    split at h
    · simp only [Except.ok.injEq] at h; subst h; exact Nat.le_refl _
    · split at h
      · simp only [Except.ok.injEq] at h; subst h; exact Nat.le_refl _
      · split at h
        · exact Except.noConfusion h
        next defStr sectionStr p2 hhdr =>
          split at h
          · exact Except.noConfusion h
          · split at h
            · exact Except.noConfusion h
            next old chunksRel endIdx eof hpeek =>
              split at h
              · exact Except.noConfusion h
              next newIndex f2 hfind =>
                have hp2 : st.pindex ≤ p2 :=
                  readHunkHeader_ge plines st.pindex _ _ _ hhdr
                have hend : p2 ≤ endIdx :=
                  (peekNextSection_spec plines p2 old chunksRel endIdx eof hpeek).2.2.1
                have := ih _ res h
                simp only at this
                omega

theorem parseUpdateLoop_nochunks (plines flines : List String) (p0 : Nat) :
    ∀ fuel st res, p0 ≤ st.pindex →
      parseUpdateLoop plines flines fuel st = .ok res →
      (∀ l ∈ (plines.drop p0).take (res.pindex - p0),
        strStartsWith l "+" = false ∧ strStartsWith l "-" = false) →
      st.chunks = [] → res.chunks = [] := by
  intro fuel
  induction fuel with
  | zero => intro st res _ h; simp [parseUpdateLoop] at h
  | succ fuel ih =>
    intro st res hge h hp hchs
    rw [parseUpdateLoop] at h
    split at h
    · simp only [Except.ok.injEq] at h; subst h; exact hchs
    · split at h
      · simp only [Except.ok.injEq] at h; subst h; exact hchs
      · split at h
        · exact Except.noConfusion h
        next defStr sectionStr p2 hhdr =>
          split at h
          · exact Except.noConfusion h
          · split at h
            · exact Except.noConfusion h
            next old chunksRel endIdx eof hpeek =>
              split at h
              · exact Except.noConfusion h
              next newIndex f2 hfind =>
                have hp2 : st.pindex ≤ p2 :=
                  readHunkHeader_ge plines st.pindex _ _ _ hhdr
                have hend : p2 ≤ endIdx :=
                  (peekNextSection_spec plines p2 old chunksRel endIdx eof hpeek).2.2.1
                have hub : endIdx ≤ res.pindex := by
                  have := parseUpdateLoop_mono plines flines _ _ res h
                  simp only at this
                  omega
                have hrel : chunksRel = [] :=
                  peekNextSection_nochunks plines p0 res.pindex p2 old chunksRel
                    endIdx eof hp (by omega) hub hpeek
                refine ih _ res ?_ h hp ?_
                · show p0 ≤ endIdx
                  omega
                · show st.chunks ++ chunksRel.map
                    (fun c => { c with orig_index := c.orig_index + newIndex }) = []
                  rw [hchs, hrel]
                  rfl
theorem matchWindow_id_imp (lines context : List String) (i : Nat)
    (f : String → String) (h : matchWindow lines context id i = true) :
    matchWindow lines context f i = true := by
  unfold matchWindow at h ⊢
  rw [decide_eq_true_eq] at h
  rw [decide_eq_true_eq]
  simp only [List.map_id] at h
  rw [h]

theorem matchWindow_rstrip_imp_strip (lines context : List String) (i : Nat)
    (h : matchWindow lines context pyRstrip i = true) :
    matchWindow lines context pyStrip i = true := by
  unfold matchWindow at h ⊢
  rw [decide_eq_true_eq] at h
  rw [decide_eq_true_eq]
  have hms : ∀ l : List String, l.map pyStrip = (l.map pyRstrip).map pyLstrip := by
    intro l
    rw [List.map_map]
    rfl
  rw [hms, hms, h]

theorem matchWindow_false_all (lines context : List String) (f : String → String)
    (hne : context ≠ [])
    (hb : ∀ j, j < lines.length → matchWindow lines context f j = false) :
    ∀ j, matchWindow lines context f j = false := by
  intro j
  by_cases hj : j < lines.length
  · exact hb j hj
  · exact matchWindow_false_of_len_le lines context f j hne (by omega)

/-! # Claims -/

/-- C1 (code_bug): the path-confinement claim fails on the code.
`_validate_path` with base directory `/base` accepts the input path
`../base2/x`: the normalized join is `/base2/x`, which passes the
string-prefix check `full_path.startswith(base_path)` although it lies
outside the `/base` directory — the claim (and the spec) require a
`DiffError` here, and require every accepted path to resolve inside the
base directory. -/
theorem C1_validate_path_sibling_escape :
    validatePath "/base" "../base2/x" = .ok "/base2/x"
      ∧ isWithin "/base" "/base2/x" = false := by
  constructor
  · rfl
  · rfl

/-- C4 (confirmed): for an end-of-file-anchored hunk, `_find_context` first
attempts the tail position `length(lines) - length(window)` with the three
matching tiers of `_find_context_core` — in particular a window matching
exactly at the tail resolves there (fuzz 0) even when an identical window
occurs earlier — and only when that tail attempt fails does it fall back to
the normal forward scan from the cursor with a +10000 fuzz penalty. -/
theorem C4_eof_resolution (lines context : List String) (start : Nat) :
    (∀ i f, findContextCore lines context (lines.length - context.length)
              = (some i, f) →
       findContext lines context start true = (some i, f))
    ∧ (∀ f0, findContextCore lines context (lines.length - context.length)
              = (none, f0) →
       findContext lines context start true
         = ((findContextCore lines context start).1,
            (findContextCore lines context start).2 + 10000))
    ∧ (context ≠ [] →
       matchWindow lines context id (lines.length - context.length) = true →
       findContext lines context start true
         = (some (lines.length - context.length), 0)) := by
  refine ⟨?_, ?_, ?_⟩
  · intro i f hcore
    unfold findContext
    rw [if_pos rfl, hcore]
  · intro f0 hcore
    unfold findContext
    rw [if_pos rfl, hcore]
  · intro hne hm
    have hcore : findContextCore lines context (lines.length - context.length)
        = (some (lines.length - context.length), 0) := by
      have hemp : ¬ context.isEmpty = true := by
        cases context
        · exact absurd rfl hne
        · simp
      unfold findContextCore
      rw [if_neg hemp, scanWindow_self lines context id _ hne hm]
    unfold findContext
    rw [if_pos rfl, hcore]

/-- C4 witness: with file `["a", "b", "a"]` and window `["a"]` (which also
occurs at index 0), the end-of-file resolution picks the tail index 2 at
fuzz 0. -/
theorem C4_eof_resolution_witness :
    findContext ["a", "b", "a"] ["a"] 0 true = (some 2, 0) := by
  exact (C4_eof_resolution ["a", "b", "a"] ["a"] 0).2.2 (by decide) (by decide)

/-- C5 (confirmed): `_find_context_core` tries three tiers in order with
first success winning, scanning forward from `start` in each tier: exact
equality resolves at the first such index with fuzz 0; failing that,
equality after right-trimming resolves at fuzz 1; failing that, equality
after trimming both ends resolves at fuzz 100; and when no tier matches the
result is the failure sentinel.  A window matching at a lower tier is never
resolved at a higher-fuzz tier, since the lower tier is tried first. -/
theorem C5_find_context_tiers (lines context : List String) (start : Nat)
    (hne : context ≠ []) :
    ((∃ i, start ≤ i ∧ matchWindow lines context id i = true) →
      ∃ i, firstMatchFrom lines context id start i
        ∧ findContextCore lines context start = (some i, 0))
    ∧ ((∀ i, start ≤ i → matchWindow lines context id i = false) →
       (∃ i, start ≤ i ∧ matchWindow lines context pyRstrip i = true) →
      ∃ i, firstMatchFrom lines context pyRstrip start i
        ∧ findContextCore lines context start = (some i, 1))
    ∧ ((∀ i, start ≤ i → matchWindow lines context id i = false) →
       (∀ i, start ≤ i → matchWindow lines context pyRstrip i = false) →
       (∃ i, start ≤ i ∧ matchWindow lines context pyStrip i = true) →
      ∃ i, firstMatchFrom lines context pyStrip start i
        ∧ findContextCore lines context start = (some i, 100))
    ∧ ((∀ i, start ≤ i → matchWindow lines context pyStrip i = false) →
      findContextCore lines context start = (none, 0)) := by
  have hemp : ¬ context.isEmpty = true := by
    cases context
    · exact absurd rfl hne
    · simp
  refine ⟨?_, ?_, ?_, ?_⟩
  · rintro ⟨i, hsi, hmi⟩
    cases hs : scanWindow lines context id start with
    | none =>
      refine absurd (scanWindow_none lines context id start hne hs i hsi) ?_
      rw [hmi]
      simp
    | some k =>
      refine ⟨k, scanWindow_some lines context id start k hs, ?_⟩
      unfold findContextCore
      rw [if_neg hemp, hs]
  · intro hno hex
    have hs1 : scanWindow lines context id start = none :=
      scanWindow_none_of_nomatch lines context id start hno
    obtain ⟨i, hsi, hmi⟩ := hex
    cases hs : scanWindow lines context pyRstrip start with
    | none =>
      refine absurd (scanWindow_none lines context pyRstrip start hne hs i hsi) ?_
      rw [hmi]
      simp
    | some k =>
      refine ⟨k, scanWindow_some lines context pyRstrip start k hs, ?_⟩
      unfold findContextCore
      rw [if_neg hemp, hs1, hs]
  · intro hno hno2 hex
    have hs1 : scanWindow lines context id start = none :=
      scanWindow_none_of_nomatch lines context id start hno
    have hs2 : scanWindow lines context pyRstrip start = none :=
      scanWindow_none_of_nomatch lines context pyRstrip start hno2
    obtain ⟨i, hsi, hmi⟩ := hex
    cases hs : scanWindow lines context pyStrip start with
    | none =>
      refine absurd (scanWindow_none lines context pyStrip start hne hs i hsi) ?_
      rw [hmi]
      simp
    | some k =>
      refine ⟨k, scanWindow_some lines context pyStrip start k hs, ?_⟩
      unfold findContextCore
      rw [if_neg hemp, hs1, hs2, hs]
  · intro hnos
    have hid : ∀ i, start ≤ i → matchWindow lines context id i = false := by
      intro i hi
      cases hcase : matchWindow lines context id i with
      | false => rfl
      | true =>
        have := matchWindow_id_imp lines context i pyStrip hcase
        rw [hnos i hi] at this
        cases this
    have hrs : ∀ i, start ≤ i → matchWindow lines context pyRstrip i = false := by
      intro i hi
      cases hcase : matchWindow lines context pyRstrip i with
      | false => rfl
      | true =>
        have := matchWindow_rstrip_imp_strip lines context i hcase
        rw [hnos i hi] at this
        cases this
    have hs1 : scanWindow lines context id start = none :=
      scanWindow_none_of_nomatch lines context id start hid
    have hs2 : scanWindow lines context pyRstrip start = none :=
      scanWindow_none_of_nomatch lines context pyRstrip start hrs
    have hs3 : scanWindow lines context pyStrip start = none :=
      scanWindow_none_of_nomatch lines context pyStrip start hnos
    unfold findContextCore
    rw [if_neg hemp, hs1, hs2, hs3]

/-- C5 witness: the window `["a"]` differs from the file `["a "]` only in
trailing whitespace, so it resolves at index 0 with fuzz 1 (the rstrip
tier), not at the strip tier. -/
theorem C5_find_context_tiers_witness :
    findContextCore ["a "] ["a"] 0 = (some 0, 1) := by
  have h := (C5_find_context_tiers ["a "] ["a"] 0 (by decide)).2.1
    (fun i _ => matchWindow_false_all ["a "] ["a"] id (by decide) (by decide) i)
    ⟨0, Nat.le_refl 0, by decide⟩
  obtain ⟨i, hfirst, heq⟩ := h
  rcases Nat.eq_zero_or_pos i with rfl | hpos
  · exact heq
  · have hms := hfirst.2.2 0 (Nat.le_refl 0) hpos
    have hm0 : matchWindow ["a "] ["a"] pyRstrip 0 = true := by decide
    rw [hm0] at hms
    cases hms

/-- C6 (confirmed): the commit builder walks the chunks with a cursor
starting at 0 and succeeds exactly when every chunk's anchor is at most the
length of the original lines and at least the running cursor (which
advances to `anchor + len(del_lines)`); in particular a two-chunk action
whose second anchor is below the first chunk's end always fails. -/
theorem C6_out_of_order (text : String) (action : PatchAction) (path : String) :
    (action.type = ActionType.update →
      isOkE (getUpdatedFile text action path)
        = chunksApplicable (splitNl text).length 0 action.chunks)
    ∧ (∀ c1 c2, action.chunks = [c1, c2] →
        c2.orig_index < c1.orig_index + c1.del_lines.length →
        action.type = ActionType.update →
        isOkE (getUpdatedFile text action path) = false) := by
  constructor
  · intro htype
    have hmain : isOkE (getUpdatedFile text action path)
        = isOkE (applyChunks (splitNl text) 0 action.chunks) := by
      unfold getUpdatedFile
      rw [if_pos htype]
      cases applyChunks (splitNl text) 0 action.chunks <;> rfl
    rw [hmain, applyChunks_isOk]
  · intro c1 c2 hch hover htype
    have hmain : isOkE (getUpdatedFile text action path)
        = isOkE (applyChunks (splitNl text) 0 action.chunks) := by
      unfold getUpdatedFile
      rw [if_pos htype]
      cases applyChunks (splitNl text) 0 action.chunks <;> rfl
    rw [hmain, applyChunks_isOk, hch]
    have hd : decide (c1.orig_index + c1.del_lines.length ≤ c2.orig_index) = false := by
      simp only [decide_eq_false_iff_not]
      omega
    rw [chunksApplicable, chunksApplicable, hd]
    simp

/-- C6 witness: deleting `"a"` at index 0 and then inserting at index 0
again (an anchor below the first chunk's end) makes the builder fail. -/
theorem C6_out_of_order_witness :
    isOkE (getUpdatedFile "a\nb"
      { type := ActionType.update, chunks := [⟨0, ["a"], []⟩, ⟨0, [], ["z"]⟩] } "f")
      = false := by
  exact (C6_out_of_order "a\nb"
      { type := ActionType.update, chunks := [⟨0, ["a"], []⟩, ⟨0, [], ["z"]⟩] } "f").2
    ⟨0, ["a"], []⟩ ⟨0, [], ["z"]⟩ rfl (by decide) rfl

/-- C8 (confirmed): when every chunk of an Update action applies
successfully — and, as resolution guarantees, every chunk's removed range
lies inside the original lines — the output of `_get_updated_file` has
exactly `length(original) - total_removed + total_inserted` lines (stated
additively to stay in `Nat`). -/
theorem C8_length_equation (text : String) (action : PatchAction) (out : List String)
    (h : applyChunks (splitNl text) 0 action.chunks = .ok out)
    (hres : ∀ c ∈ action.chunks, chunkEnd c ≤ (splitNl text).length) :
    out.length + (action.chunks.map (fun c => c.del_lines.length)).sum
      = (splitNl text).length + (action.chunks.map (fun c => c.ins_lines.length)).sum := by
  have hlen := applyChunks_length (splitNl text) action.chunks 0 out h
    (Nat.zero_le _) hres
  omega

/-- C8 witness: replacing the middle line of `"a\nb\nc"` by two lines gives
4 output lines: `4 + 1 = 3 + 2`. -/
theorem C8_length_equation_witness :
    (["a", "x", "y", "c"] : List String).length + 1 = (splitNl "a\nb\nc").length + 2 := by
  have h := C8_length_equation "a\nb\nc"
    { type := ActionType.update, chunks := [⟨1, ["b"], ["x", "y"]⟩] }
    ["a", "x", "y", "c"] (by rfl) (by decide)
  simpa using h

/-- C9 (confirmed): an Update section whose hunks contain only context lines
(no line consumed by the section starts with `'+'` or `'-'`) parses into an
action with no chunks, and applying that action reproduces the original
file content exactly. -/
theorem C9_context_only_identity (plines : List String) (pindex fuzz : Nat)
    (text : String) (action : PatchAction) (p f : Nat) (path : String)
    (hp : ∀ l ∈ (plines.drop pindex).take (p - pindex),
      strStartsWith l "+" = false ∧ strStartsWith l "-" = false)
    (h : parseUpdateFile plines pindex fuzz text = .ok (action, p, f)) :
    action.chunks = [] ∧ getUpdatedFile text action path = .ok text := by
  unfold parseUpdateFile at h
  split at h
  · exact Except.noConfusion h
  next st hst =>
    simp only [Except.ok.injEq, Prod.mk.injEq] at h
    obtain ⟨rfl, rfl, rfl⟩ := h
    have hchs : st.chunks = [] :=
      parseUpdateLoop_nochunks plines (splitNl text) pindex _ _ st
        (Nat.le_refl _) hst hp rfl
    refine ⟨hchs, ?_⟩
    unfold getUpdatedFile
    rw [if_pos rfl]
    show (match applyChunks (splitNl text) 0 st.chunks with
          | .error e => Except.error e
          | .ok dest => Except.ok (joinNl dest)) = Except.ok text
    rw [hchs, applyChunks, List.drop_zero]
    show Except.ok (joinNl (splitNl text)) = Except.ok text
    rw [joinNl_splitNl]

/-- C9 witness: the patch section consisting of the single context line
`" a"` over the one-line file `"a"` yields no chunks and identical content. -/
theorem C9_context_only_identity_witness :
    ({ type := ActionType.update, chunks := [] } : PatchAction).chunks = ([] : List Chunk)
      ∧ getUpdatedFile "a" { type := ActionType.update, chunks := [] } "f"
          = .ok "a" := by
  exact C9_context_only_identity
    ["*** Begin Patch", "*** Update File: f", " a", "*** End Patch"] 2 0 "a"
    { type := ActionType.update, chunks := [] } 3 0 "f" (by decide) (by rfl)

/-- C3 counterexample: the claim "chunks are ordered by strictly increasing
resolved anchor and non-overlapping, including hunks resolved via the
end-of-file tail attempt" is false.  On the file `"a\nb"`, a first hunk
`" a" / "-b"` resolves its chunk to anchor 1 (end 2) and moves the cursor to
2, but a second end-of-file-anchored hunk `"-b"` resolves via the tail
attempt back to anchor 1: the parse succeeds with chunks `[⟨1,["b"],[]⟩,
⟨1,["b"],[]⟩]`, whose anchors are not strictly increasing and which
overlap (`1 + 1 ≤ 1` fails). -/
theorem C3_counterexample :
    parseUpdateFile
        ["*** Begin Patch", "*** Update File: f", " a", "-b", "@@", "-b",
         "*** End of File", "*** End Patch"] 2 0 "a\nb"
      = .ok ({ type := ActionType.update,
               chunks := [⟨1, ["b"], []⟩, ⟨1, ["b"], []⟩] }, 7, 0)
    ∧ ¬ ((⟨1, ["b"], []⟩ : Chunk).orig_index < (⟨1, ["b"], []⟩ : Chunk).orig_index)
    ∧ ¬ (chunkEnd ⟨1, ["b"], []⟩ ≤ (⟨1, ["b"], []⟩ : Chunk).orig_index) := by
  refine ⟨by rfl, by decide, by decide⟩

/-- C3 (amended): for every successfully parsed Update action of a patch
containing no `*** End of File` marker (so no hunk is end-of-file-anchored
and every window resolves by the forward scan from the cursor), consecutive
chunks are non-overlapping: `chunk[i].orig_index + len(chunk[i].del_lines)
≤ chunk[i+1].orig_index`, i.e. the resolution cursor only moves forward.
(Strict anchor increase can still fail for pure-insertion chunks sharing an
anchor, and the end-of-file tail attempt can even break non-overlap, as the
counterexample shows.) -/
theorem C3_amended_no_eof_ordering (plines : List String) (pindex fuzz : Nat)
    (text : String) (action : PatchAction) (p f : Nat)
    (hno : "*** End of File" ∉ plines)
    (h : parseUpdateFile plines pindex fuzz text = .ok (action, p, f)) :
    List.Chain' chunkRel action.chunks := by
  unfold parseUpdateFile at h
  split at h
  · exact Except.noConfusion h
  next st hst =>
    simp only [Except.ok.injEq, Prod.mk.injEq] at h
    obtain ⟨rfl, rfl, rfl⟩ := h
    exact (parseUpdateLoop_inv plines (splitNl text) hno _ _ st hst
      ⟨List.chain'_nil, by simp⟩).1

/-- C3 witness: a one-hunk patch without an end-of-file marker parses with
pairwise non-overlapping chunks. -/
theorem C3_amended_no_eof_ordering_witness :
    List.Chain' chunkRel [(⟨1, ["b"], ["c"]⟩ : Chunk)] := by
  exact C3_amended_no_eof_ordering
    ["*** Begin Patch", "*** Update File: f", " a", "-b", "+c", "*** End Patch"]
    2 0 "a\nb" { type := ActionType.update, chunks := [⟨1, ["b"], ["c"]⟩] } 5 0
    (by decide) (by rfl)

/-- C2 counterexample: the claim that an Add File action whose path
pre-exists in the loaded file set always fails is false.  The loaded file
set is keyed by raw `*** Update File:` / `*** Delete File:` lines found
anywhere in the text; with a stray `*** Delete File: p` line after an early
`*** End Patch` line, the path `p` (content `"old"`) is loaded, the parser
stops at the early end marker without ever checking the Add path against
the loaded files, and the pipeline succeeds with a Commit that overwrites
`p` with `"new"`. -/
theorem C2_counterexample :
    List.lookup "p" ([("p", "old")] : FileMap) = some "old"
    ∧ identifyFilesNeeded
        "*** Begin Patch\n*** Add File: p\n+new\n*** End Patch\n*** Delete File: p\n*** End Patch"
        = ["p"]
    ∧ processV4ADiff
        "*** Begin Patch\n*** Add File: p\n+new\n*** End Patch\n*** Delete File: p\n*** End Patch"
        [("p", "old")]
      = .ok { changes := [("p", { type := ActionType.add, new_content := some "new" })] } := by
  refine ⟨rfl, by rfl, by rfl⟩

/-- C2 (amended): the only pre-existence guard on an Add File section is the
Duplicate Path check against previously parsed sections: whenever the
parser reaches an `*** Add File: <p>` header and `p` is already registered
in the action map, parsing fails with a Duplicate Path error.  Membership of
`p` in the loaded file set itself is never checked for Add actions, so a
path loaded only via a stray Update/Delete header line (e.g. after an early
`*** End Patch`) is silently overwritten, as the counterexample shows. -/
theorem C2_amended_duplicate_guard (cf : FileMap) (plines : List String)
    (fuel pindex fuzz : Nat) (actions : List (String × PatchAction)) (l p : String)
    (hline : plines[pindex]? = some l)
    (hend : strStartsWith l "*** End Patch" = false)
    (hupd : strStartsWith l "*** Update File: " = false)
    (hdel : strStartsWith l "*** Delete File: " = false)
    (hadd : strStartsWith l "*** Add File: " = true)
    (hp : strDrop l ("*** Add File: ".data.length) = p)
    (hpne : ¬ p = "")
    (hdup : (List.lookup p actions).isSome = true) :
    parseLoop cf plines (fuel + 1) pindex fuzz actions
      = .error ("Add File Error: Duplicate Path: " ++ p) := by
  rw [parseLoop, hline]
  simp only [readStr, hline, hend, hupd, hdel, hadd, hp, hpne, hdup,
    Bool.false_eq_true, if_false, if_true]
  simp [hpne, hdup]

/-- C2 witness: an Add section for a path already registered as a Delete
action raises the Duplicate Path error. -/
theorem C2_amended_duplicate_guard_witness :
    parseLoop [] ["*** Add File: p"] 1 0 0 [("p", { type := ActionType.delete })]
      = .error ("Add File Error: Duplicate Path: " ++ "p") := by
  exact C2_amended_duplicate_guard [] ["*** Add File: p"] 0 0 0
    [("p", { type := ActionType.delete })] "*** Add File: p" "p"
    rfl (by decide) (by decide) (by decide) (by decide) (by decide) (by decide) rfl

/-- C7 counterexample: the claim that an unfound non-blank `@@` anchor makes
parsing fail with an "invalid line" error is false.  With file `"a\nb"` and
hunk header `@@ zzz` — a text matching no file line exactly or after
trimming — parsing continues, the window `[" a", "-b"]` resolves at the
unchanged cursor, and the Update section parses successfully. -/
theorem C7_counterexample :
    (∀ l ∈ splitNl "a\nb", ¬ l = "zzz" ∧ ¬ pyStrip l = pyStrip "zzz")
    ∧ parseUpdateFile
        ["*** Begin Patch", "*** Update File: f", "@@ zzz", " a", "-b",
         "*** End Patch"] 2 0 "a\nb"
      = .ok ({ type := ActionType.update, chunks := [⟨1, ["b"], []⟩] }, 5, 0) := by
  refine ⟨by decide, by rfl⟩

/-- C7 (amended): when a hunk's non-blank `@@` anchor text is found by
neither the exact forward search nor the trimmed fallback (no line of the
file matches either way), the anchor step is a no-op — the scan cursor and
the fuzz counter are left unchanged and parsing simply continues to window
resolution; no "invalid line" error is raised by the anchor search. -/
theorem C7_amended_anchor_noop (flines : List String) (cur : Nat)
    (defStr : String) (fuzz : Nat)
    (hex : ∀ s ∈ flines, ¬ s = defStr)
    (htr : ∀ s ∈ flines, ¬ pyStrip s = pyStrip defStr) :
    resolveAnchor flines cur defStr fuzz = (cur, fuzz) := by
  have hfa : findFrom flines (fun s => s = defStr) cur = none :=
    findFromAux_none_of _ _ cur
      (fun s hs => decide_eq_false (hex s (List.mem_of_mem_drop hs)))
  have hfa2 : findFrom flines (fun s => pyStrip s = pyStrip defStr) cur = none :=
    findFromAux_none_of _ _ cur
      (fun s hs => decide_eq_false (htr s (List.mem_of_mem_drop hs)))
  have hany : (flines.take cur).any (fun s => s = defStr) = false :=
    List.any_eq_false.mpr
      (fun x hx => by simp [hex x (List.take_subset _ _ hx)])
  have hany2 : (flines.take cur).any (fun s => pyStrip s = pyStrip defStr) = false :=
    List.any_eq_false.mpr
      (fun x hx => by simp [htr x (List.take_subset _ _ hx)])
  unfold resolveAnchor
  rw [hany]
  rw [if_neg Bool.false_ne_true, hfa]
  show (if (flines.take cur).any (fun s => pyStrip s = pyStrip defStr) = true
        then (cur, fuzz)
        else match findFrom flines (fun s => pyStrip s = pyStrip defStr) cur with
             | some i => (i + 1, fuzz + 1)
             | none => (cur, fuzz)) = (cur, fuzz)
  rw [hany2, if_neg Bool.false_ne_true, hfa2]

/-- C7 witness: the anchor text `"zzz"` occurs nowhere in `["a", "b"]`, and
the anchor step returns the cursor and fuzz unchanged. -/
theorem C7_amended_anchor_noop_witness :
    resolveAnchor ["a", "b"] 0 "zzz" 0 = (0, 0) := by
  exact C7_amended_anchor_noop ["a", "b"] 0 "zzz" 0 (by decide) (by decide)

/-- C10 counterexample: the claim that in `_parse_create_diff` "leading
empty lines are skipped ... and interior empty lines contribute an empty
line" is false under its positional reading: in `"x\n\n+a"` the empty line
is interior (it follows the junk line `"x"`), yet it is skipped because no
content has been collected — the result is `"a"`, not `"\na"`. -/
theorem C10_counterexample :
    parseCreateDiff "x\n\n+a" = "a" ∧ ¬ parseCreateDiff "x\n\n+a" = "\na" := by
  refine ⟨by rfl, by decide⟩

/-- C10 (amended): `_parse_create_diff` is a total function (it returns a
string for every diff, never raising): a line starting with `'+'` or `' '`
contributes its remainder; an empty line is skipped while no content has
been collected yet and contributes an empty line afterwards; every other
line is silently omitted — unlike `parse_add_file`, which fails with an
Invalid Add File Line error on any body line not starting with `'+'`. -/
theorem C10_amended_create_diff :
    (∀ rest acc l, ¬ l = "" → strStartsWith l "+" = false →
       strStartsWith l " " = false →
       createLoop (l :: rest) acc = createLoop rest acc)
    ∧ (∀ rest, createLoop ("" :: rest) [] = createLoop rest [])
    ∧ (∀ rest acc, ¬ acc = [] →
       createLoop ("" :: rest) acc = createLoop rest (acc ++ [""]))
    ∧ (∀ rest acc l, strStartsWith l "+" = true →
       createLoop (l :: rest) acc = createLoop rest (acc ++ [strDrop l 1]))
    ∧ (∀ rest acc l, strStartsWith l "+" = false → strStartsWith l " " = true →
       createLoop (l :: rest) acc = createLoop rest (acc ++ [strDrop l 1]))
    ∧ (∀ plines fuel pindex acc l, plines[pindex]? = some l →
       startsWithAny l addStops = false → strStartsWith l "+" = false →
       parseAddLoop plines (fuel + 1) pindex acc
         = .error ("Invalid Add File Line: " ++ l)) := by
  refine ⟨?_, ?_, ?_, ?_, ?_, ?_⟩
  · intro rest acc l hne hplus hspace
    rw [createLoop]
    rw [if_neg (fun hcon => hne hcon.1)]
    rw [hplus, if_neg Bool.false_ne_true]
    rw [hspace, if_neg Bool.false_ne_true]
    rw [if_neg hne]
  · intro rest
    rw [createLoop]
    rw [if_pos ⟨rfl, rfl⟩]
  · intro rest acc hacc
    rw [createLoop]
    rw [if_neg (fun hcon => hacc hcon.2)]
    rw [show strStartsWith "" "+" = false from rfl, if_neg Bool.false_ne_true]
    rw [show strStartsWith "" " " = false from rfl, if_neg Bool.false_ne_true]
    rw [if_pos rfl]
  · intro rest acc l hplus
    have hne : ¬ l = "" := by
      intro hcon
      rw [hcon] at hplus
      exact absurd hplus (by decide)
    rw [createLoop]
    rw [if_neg (fun hcon => hne hcon.1)]
    rw [hplus, if_pos rfl]
  · intro rest acc l hplus hspace
    have hne : ¬ l = "" := by
      intro hcon
      rw [hcon] at hspace
      exact absurd hspace (by decide)
    rw [createLoop]
    rw [if_neg (fun hcon => hne hcon.1)]
    rw [hplus, if_neg Bool.false_ne_true]
    rw [hspace, if_pos rfl]
  · intro plines fuel pindex acc l hline hstops hplus
    rw [parseAddLoop, hline]
    show (if startsWithAny l addStops = true then Except.ok (acc, pindex)
          else if ¬ strStartsWith l "+" = true
               then Except.error ("Invalid Add File Line: " ++ l)
               else parseAddLoop plines fuel (pindex + 1) (acc ++ [strDrop l 1]))
         = Except.error ("Invalid Add File Line: " ++ l)
    rw [hstops, if_neg Bool.false_ne_true, hplus]
    rw [if_pos (by simp)]

/-- C10 witness: the junk line `"x"` is silently omitted by the create-diff
parser, while the same line fails `parse_add_file`. -/
theorem C10_amended_create_diff_witness :
    createLoop ["x"] [] = createLoop [] []
      ∧ parseAddLoop ["x"] 1 0 [] = .error ("Invalid Add File Line: " ++ "x") := by
  refine ⟨C10_amended_create_diff.1 [] [] "x" (by decide) (by decide) (by decide),
    C10_amended_create_diff.2.2.2.2.2 ["x"] 0 0 [] "x" rfl (by decide) (by decide)⟩

end ApplyPatch
